import Mathlib

/-!
# Verification of `scripts/update-flows.ts`

A shallow embedding of the flow-aggregation script: it reads a protocol
registry (protocol name → contract addresses), fetches ERC-20 `Transfer`
logs over a block window, classifies each transfer as wallet→protocol,
protocol→wallet or protocol→protocol, accumulates per-edge volume in an
insertion-ordered map, and emits a report with the edge list and total
volume.

Modelling conventions:
* JavaScript `bigint` values (always non-negative here: they come from hex
  strings) are `Nat`.
* JavaScript `number` is modelled as `ℚ`: the script's arithmetic on
  converted amounts is addition and division only, which we treat exactly.
* JavaScript `Map` (insertion-ordered, `set` keeps the position of an
  existing key) is an association list with in-place update.
* I/O (RPC fetch, file system, clock) is pushed to parameters: the
  aggregation is modelled as a function of the fetched log list, and the
  registry loader as a function of the optional file contents and of an
  abstract JSON parser.
-/

namespace UpdateFlows

/-- `Transfer(address,address,uint256)` event signature topic
(the `TRANSFER_TOPIC` constant, lowercase hex). -/
def TRANSFER_TOPIC : String :=
  "0xddf252ad1be2c89b69c2b068fc378daa952ba7f163c4a11628f55a4df523b3ef"

/-- Value of one hexadecimal digit character, as consumed by
JavaScript's `BigInt("0x…")` (both cases accepted). Characters that are
not hex digits do not occur in the inputs the script feeds this. -/
def hexDigitVal (c : Char) : Nat :=
  if '0' ≤ c ∧ c ≤ '9' then c.toNat - '0'.toNat
  else if 'a' ≤ c ∧ c ≤ 'f' then c.toNat - 'a'.toNat + 10
  else if 'A' ≤ c ∧ c ≤ 'F' then c.toNat - 'A'.toNat + 10
  else 0

/-- `hexToBigInt(hex)`: `if (!hex || hex === "0x") return 0n; return BigInt(hex);`.
The empty string is the only falsy `string` value, and `BigInt` on a
`0x`-prefixed string parses the digits after the prefix in base 16. -/
def hexToBigInt (hex : String) : Nat :=
  if hex = "" ∨ hex = "0x" then 0
  else ((hex.drop 2).data).foldl (fun acc c => acc * 16 + hexDigitVal c) 0

/-- `weiToMon(value, decimals = 18)`: early-returns 0 for a zero value,
otherwise splits into integer quotient and remainder by `10^decimals` and
recombines `Number(whole) + Number(fraction) / Number(base)`. -/
def weiToMon (value : Nat) (decimals : Nat := 18) : ℚ :=
  if value = 0 then 0
  else
    let base : Nat := 10 ^ decimals
    let whole : Nat := value / base
    let fraction : Nat := value % base
    (whole : ℚ) + (fraction : ℚ) / (base : ℚ)

/-- The numeric part of `blockOffset(latestBlock, offset)`:
`latestBlock > off ? latestBlock - off : 0n`. -/
def blockOffsetFrom (latestBlock : Nat) (offset : Nat) : Nat :=
  if latestBlock > offset then latestBlock - offset else 0

/-- `blockOffset`: renders the clamped start block as a `0x`-prefixed
lowercase hex string (`"0x" + from.toString(16)`). -/
def blockOffset (latestBlock : Nat) (offset : Nat) : String :=
  "0x" ++ (Nat.toDigits 16 (blockOffsetFrom latestBlock offset)).asString

/-! ## Association lists with JavaScript `Map` semantics

`Map.set` on an existing key updates the value in place (keeping the
key's insertion position); on a fresh key it appends.  `Map.get` returns
the stored value or `undefined` (here `Option`). -/

/-- `Map.set m k v`. -/
def alSet {α β : Type} [DecidableEq α] : List (α × β) → α → β → List (α × β)
  | [], k, v => [(k, v)]
  | (k', v') :: rest, k, v =>
    if k' = k then (k', v) :: rest else (k', v') :: alSet rest k v

/-- `Map.get m k`. -/
def alGet {α β : Type} [DecidableEq α] : List (α × β) → α → Option β
  | [], _ => none
  | (k', v') :: rest, k => if k' = k then some v' else alGet rest k

@[simp] theorem alGet_nil {α β : Type} [DecidableEq α] (k : α) :
    alGet ([] : List (α × β)) k = none := rfl

theorem alGet_alSet {α β : Type} [DecidableEq α]
    (m : List (α × β)) (k k' : α) (v : β) :
    alGet (alSet m k v) k' = if k' = k then some v else alGet m k' := by
  induction m with
  | nil =>
    rcases eq_or_ne k k' with h | h
    · subst h; simp [alSet, alGet]
    · simp [alSet, alGet, h, Ne.symm h]
  | cons hd tl ih =>
    obtain ⟨k₀, v₀⟩ := hd
    rcases eq_or_ne k₀ k with h | h
    · subst h
      rcases eq_or_ne k₀ k' with h' | h'
      · subst h'; simp [alSet, alGet]
      · simp [alSet, alGet, h', Ne.symm h']
    · rcases eq_or_ne k₀ k' with h' | h'
      · subst h'
        simp [alSet, alGet, h, Ne.symm h]
      · simp [alSet, alGet, h, h', ih]

/-- Keys of the map are pairwise distinct (JavaScript `Map` invariant). -/
def KeysNodup {α β : Type} (m : List (α × β)) : Prop :=
  (m.map Prod.fst).Nodup

theorem keysNodup_nil {α β : Type} : KeysNodup ([] : List (α × β)) := by
  simp [KeysNodup]

/-- `alSet` only ever adds the key it writes. -/
theorem mem_keys_alSet {α β : Type} [DecidableEq α]
    (m : List (α × β)) (k : α) (v : β) (a : α) :
    a ∈ (alSet m k v).map Prod.fst ↔ a ∈ m.map Prod.fst ∨ a = k := by
  induction m with
  | nil => simp [alSet]
  | cons hd tl ih =>
    obtain ⟨k₀, v₀⟩ := hd
    rcases eq_or_ne k₀ k with h | h
    · subst h
      constructor
      · intro hmem; exact Or.inl (by simpa [alSet] using hmem)
      · rintro (hmem | rfl)
        · simpa [alSet] using hmem
        · simp [alSet]
    · simp only [alSet, h, if_false, List.map_cons, List.mem_cons, ih]
      tauto

theorem keysNodup_alSet {α β : Type} [DecidableEq α]
    (m : List (α × β)) (k : α) (v : β) (h : KeysNodup m) :
    KeysNodup (alSet m k v) := by
  induction m with
  | nil => simp [alSet, KeysNodup]
  | cons hd tl ih =>
    obtain ⟨k₀, v₀⟩ := hd
    simp only [KeysNodup, List.map_cons, List.nodup_cons] at h
    rcases eq_or_ne k₀ k with hk | hk
    · subst hk
      have hset : alSet ((k₀, v₀) :: tl) k₀ v = (k₀, v) :: tl := by simp [alSet]
      rw [hset]
      simp only [KeysNodup, List.map_cons, List.nodup_cons]
      exact h
    · simp only [alSet, hk, if_false, KeysNodup, List.map_cons, List.nodup_cons]
      refine ⟨?_, ih h.2⟩
      intro hmem
      rcases (mem_keys_alSet tl k v k₀).mp hmem with h₁ | h₂
      · exact h.1 h₁
      · exact hk h₂

/-- Every stored value satisfies `p` after `alSet` when it did before and
the new value does. -/
theorem alSet_values {α β : Type} [DecidableEq α] {p : β → Prop}
    (m : List (α × β)) (k : α) (v : β)
    (hm : ∀ kv ∈ m, p kv.2) (hv : p v) :
    ∀ kv ∈ alSet m k v, p kv.2 := by
  induction m with
  | nil => simpa [alSet]
  | cons hd tl ih =>
    obtain ⟨k₀, v₀⟩ := hd
    by_cases hk : k₀ = k
    · simp only [alSet, hk, if_true]
      intro kv hkv
      rcases List.mem_cons.mp hkv with h | h
      · simpa [h] using hv
      · exact hm kv (List.mem_cons_of_mem _ h)
    · simp only [alSet, hk, if_false]
      intro kv hkv
      rcases List.mem_cons.mp hkv with h | h
      · exact hm kv (by simp [h])
      · exact ih (fun kv h' => hm kv (List.mem_cons_of_mem _ h')) kv h

/-! ## Protocol registry -/

/-- One entry of `protocols.json`: `{ contracts: string[], category?: string }`. -/
structure ProtocolConfig where
  contracts : List String
  category : Option String
deriving DecidableEq

/-- `ProtocolsFile = Record<string, ProtocolConfig>`, in declaration
order (`Object.entries` iterates string keys in insertion order). -/
abbrev ProtocolsFile := List (String × ProtocolConfig)

/-- Reverse index `contractToProtocol : address → protocol name`. -/
abbrev ReverseIndex := List (String × String)

/-- The nested loop of `buildFlowsForPeriod` that populates
`contractToProtocol`: for every protocol entry, for every contract
address, `contractToProtocol.set(addr.toLowerCase(), name)`. -/
def buildReverseIndex (protocols : ProtocolsFile) : ReverseIndex :=
  protocols.foldl
    (fun m nc => nc.2.contracts.foldl (fun m addr => alSet m addr.toLower nc.1) m)
    []

/-- The sequence of `(lowercased address, protocol name)` writes the
nested loop performs, in execution order. -/
def indexWrites (protocols : ProtocolsFile) : List (String × String) :=
  protocols.flatMap fun nc => nc.2.contracts.map fun addr => (addr.toLower, nc.1)

/-- The last write to key `a` in a write sequence, if any. -/
def lastWrite (writes : List (String × String)) (a : String) : Option String :=
  (writes.reverse.find? fun w => w.1 = a).map Prod.snd

/-! ## Protocol loader (`loadProtocols`) -/

/-- Result of a successful `loadProtocols` call: whether the
"protocols.json not found" warning was emitted, and the registry. -/
structure LoadOutcome where
  warned : Bool
  registry : ProtocolsFile
deriving DecidableEq

/-- `loadProtocols()`, with the file system and `JSON.parse` abstracted:
`fileContents` is `none` when `fs.existsSync` is false, otherwise the raw
text; `parseJson` models `JSON.parse`, whose exception (the `.error`
case) the script does not catch. -/
def loadProtocols (fileContents : Option String)
    (parseJson : String → Except String ProtocolsFile) :
    Except String LoadOutcome :=
  match fileContents with
  | none => .ok ⟨true, []⟩
  | some raw => (parseJson raw).map fun r => ⟨false, r⟩

/-! ## Flow aggregation (`buildFlowsForPeriod`) -/

/-- One raw log record as returned by `eth_getLogs`. -/
structure TransferLog where
  address : String
  topics : List String
  data : String
  blockNumber : String
  transactionHash : String
deriving DecidableEq

/-- The accumulation map.  The script keys a JavaScript `Map` by the
string `source + "|||" + target` and splits it back on `"|||"` when
materializing the flows; we key by the pair directly (the encoding
round-trips whenever neither endpoint name contains the separator, and
endpoint names are protocol names or the literal `"Wallets"`). -/
abbrev VolumeMap := List ((String × String) × ℚ)

/-- `addFlow(source, target, vol)`: ignore non-positive volumes,
otherwise add onto the existing entry (`volumeMap.get(key) || 0`). -/
def addFlow (m : VolumeMap) (source target : String) (vol : ℚ) : VolumeMap :=
  if vol ≤ 0 then m
  else alSet m (source, target) (((alGet m (source, target)).getD 0) + vol)

/-- JavaScript truthiness of `string | undefined`, as used in the
`!fromProt`, `toProt` … guards: `undefined` and the empty string are the
only falsy values. -/
def truthy (o : Option String) : Bool :=
  match o with
  | none => false
  | some s => !(s = "")

/-- The three sequential `if` statements of the classification, applied
to the lookup results `fromProt`/`toProt` and the converted volume. -/
def stepClassify (m : VolumeMap) (fromProt toProt : Option String) (vol : ℚ) :
    VolumeMap :=
  let m₁ := if !truthy fromProt && truthy toProt then
    addFlow m "Wallets" (toProt.getD "") vol else m
  let m₂ := if truthy fromProt && !truthy toProt then
    addFlow m₁ (fromProt.getD "") "Wallets" vol else m₁
  if truthy fromProt && truthy toProt && !(fromProt.getD "" = toProt.getD "") then
    addFlow m₂ (fromProt.getD "") (toProt.getD "") vol else m₂

/-- The edge the classification produces, if any (the branch conditions
are mutually exclusive, so at most one `addFlow` fires per event). -/
def classifyEdge (fromProt toProt : Option String) : Option (String × String) :=
  if !truthy fromProt && truthy toProt then some ("Wallets", toProt.getD "")
  else if truthy fromProt && !truthy toProt then some (fromProt.getD "", "Wallets")
  else if truthy fromProt && truthy toProt && !(fromProt.getD "" = toProt.getD "")
    then some (fromProt.getD "", toProt.getD "")
  else none

/-- The body of the `for (const log of logs)` loop, on a log whose
`topics[0]` exists.  `topics[1]`/`topics[2]` that are missing are read as
`undefined`, which is falsy exactly like the empty string, so both are
modelled by `""`.  Addresses are the low 20 bytes of the 32-byte topics
(`"0x" + topic.slice(26).toLowerCase()`), and the amount is
`weiToMon(hexToBigInt(log.data))`. -/
def stepPure (idx : ReverseIndex) (m : VolumeMap) (log : TransferLog) :
    VolumeMap :=
  let topic0 := log.topics.headD ""
  if topic0.toLower ≠ TRANSFER_TOPIC then m
  else
    let topicFrom := log.topics.getD 1 ""
    let topicTo := log.topics.getD 2 ""
    if topicFrom = "" ∨ topicTo = "" then m
    else
      let fromAddr := "0x" ++ (topicFrom.drop 26).toLower
      let toAddr := "0x" ++ (topicTo.drop 26).toLower
      let valueMon := weiToMon (hexToBigInt log.data) 18
      stepClassify m (alGet idx fromAddr) (alGet idx toAddr) valueMon

/-- The loop body including the failure mode: the destructured `topics[0]`
of a log with no topics is `undefined`, and `topic0.toLowerCase()` then
throws a `TypeError` that nothing catches before `main().catch`. -/
def stepLog (idx : ReverseIndex) (m : VolumeMap) (log : TransferLog) :
    Except String VolumeMap :=
  if log.topics = [] then
    .error "TypeError: Cannot read properties of undefined"
  else
    .ok (stepPure idx m log)

/-- One materialized edge of the output (`FlowEntry`). -/
structure FlowEntry where
  source : String
  target : String
  volume : ℚ
deriving DecidableEq

/-- `Array.from(volumeMap.entries()).map(...)`: the accumulation map in
insertion order, as flow entries. -/
def flowsOfMap (m : VolumeMap) : List FlowEntry :=
  m.map fun kv => ⟨kv.1.1, kv.1.2, kv.2⟩

/-- `flows.reduce((sum, f) => sum + f.volume, 0)`. -/
def totalVolumeOf (flows : List FlowEntry) : ℚ :=
  flows.foldl (fun sum f => sum + f.volume) 0

/-- The output report for one period.  The `lastUpdated` timestamp is
ambient I/O (`new Date()`) and the period label is overwritten by the
caller, so neither carries information about the aggregation. -/
structure FlowFile where
  period : String
  totalVolume : ℚ
  flows : List FlowEntry
deriving DecidableEq

/-- `buildFlowsForPeriod`, with the fetched logs passed in place of the
RPC call: build the reverse index from the registry, run the
classification loop over the logs, then materialize the flows and total
them in one final pass. -/
def buildFlowsForPeriod (protocols : ProtocolsFile) (logs : List TransferLog) :
    Except String FlowFile :=
  let contractToProtocol := buildReverseIndex protocols
  (logs.foldlM (stepLog contractToProtocol) ([] : VolumeMap)).map
    fun volumeMap =>
      let flows := flowsOfMap volumeMap
      { period := "raw"
        totalVolume := totalVolumeOf flows
        flows := flows }

/-- Equality on `Except` results is decidable componentwise; used to
evaluate the aggregator on concrete inputs. -/
instance exceptDecEq {e a : Type} [DecidableEq e] [DecidableEq a] :
    DecidableEq (Except e a) := fun x y =>
  match x, y with
  | .error u, .error u' =>
    if h : u = u' then isTrue (by rw [h])
    else isFalse (by intro hc; cases hc; exact h rfl)
  | .ok u, .ok u' =>
    if h : u = u' then isTrue (by rw [h])
    else isFalse (by intro hc; cases hc; exact h rfl)
  | .error _, .ok _ => isFalse (by intro hc; cases hc)
  | .ok _, .error _ => isFalse (by intro hc; cases hc)

example : hexToBigInt "0x" = 0 := by decide
example : hexToBigInt "" = 0 := by decide
example : hexToBigInt "0x1bc16d674ec80000" = 2 * 10 ^ 18 := by decide
example : hexToBigInt "0x29a2241af62c0000" = 3 * 10 ^ 18 := by decide
example : weiToMon (2 * 10 ^ 18) 18 = 2 := by norm_num [weiToMon]
example : blockOffset 255 16 = "0xef" := by decide

/-! ## Claim theorems -/

/-- C6: for all non-negative `raw` and `decimals`, `weiToMon` returns
exactly 0 on a zero raw amount, is non-negative, and equals the integer
part `raw / 10^decimals` plus the remainder `raw % 10^decimals` divided
by `10^decimals`. -/
theorem weiToMon_spec (r d : Nat) :
    weiToMon 0 d = 0 ∧ 0 ≤ weiToMon r d ∧
    weiToMon r d =
      ((r / 10 ^ d : Nat) : ℚ) + ((r % 10 ^ d : Nat) : ℚ) / ((10 ^ d : Nat) : ℚ) := by
  refine ⟨by simp [weiToMon], ?_, ?_⟩
  · unfold weiToMon
    split
    · exact le_refl 0
    · positivity
  · unfold weiToMon
    split
    · rename_i h
      subst h
      simp
    · rfl

/-- C7: `blockOffset` clamps the start of the block range at zero:
its numeric value is `max(latestBlock - blocksBack, 0)`, hence never
negative and exactly the difference whenever that is non-negative. -/
theorem blockOffsetFrom_spec (l o : Nat) :
    0 ≤ ((blockOffsetFrom l o : Nat) : Int) ∧
    ((blockOffsetFrom l o : Nat) : Int) = max ((l : Int) - (o : Int)) 0 := by
  unfold blockOffsetFrom
  refine ⟨Int.natCast_nonneg _, ?_⟩
  rcases le_total ((l : Int) - (o : Int)) 0 with h | h
  · rw [max_eq_right h]
    split <;> omega
  · rw [max_eq_left h]
    split <;> omega

/-- C9: an absent configuration file yields the empty registry together
with the warning (not an error), while a parse failure on present but
malformed contents propagates uncaught. -/
theorem loadProtocols_spec (parseJson : String → Except String ProtocolsFile) :
    loadProtocols none parseJson = .ok ⟨true, []⟩ ∧
    ∀ raw msg, parseJson raw = .error msg →
      loadProtocols (some raw) parseJson = .error msg := by
  refine ⟨rfl, ?_⟩
  intro raw msg h
  simp [loadProtocols, h, Except.map]

/-- Witness for C9 at a concrete parser: a parser that rejects
everything maps absent contents to the warned empty registry and a
malformed document to the error. -/
theorem loadProtocols_spec_witness :
    loadProtocols none (fun _ => .error "Unexpected token") = .ok ⟨true, []⟩ ∧
    loadProtocols (some "not json") (fun _ => .error "Unexpected token") =
      .error "Unexpected token" := by
  have h := loadProtocols_spec (fun _ => .error "Unexpected token")
  exact ⟨h.1, h.2 "not json" "Unexpected token" rfl⟩

/-- Looking up the result of replaying a write sequence with `alSet`
returns the last write to that key, falling back to the initial map. -/
theorem foldl_alSet_get (writes : List (String × String)) (m₀ : ReverseIndex)
    (a : String) :
    alGet (writes.foldl (fun m w => alSet m w.1 w.2) m₀) a
      = (lastWrite writes a).or (alGet m₀ a) := by
  induction writes generalizing m₀ with
  | nil => simp [lastWrite]
  | cons w ws ih =>
    simp only [List.foldl_cons]
    rw [ih]
    simp only [lastWrite, List.reverse_cons, List.find?_append]
    cases hfind : ws.reverse.find? fun x => decide (x.1 = a) with
    | some u => simp
    | none =>
      simp only [Option.map_none, Option.none_or, List.find?_cons, List.find?_nil]
      rw [alGet_alSet]
      rcases eq_or_ne a w.1 with h | h
      · simp [h]
      · simp [h, Ne.symm h]

/-- The nested registry loop is the replay of its write sequence. -/
theorem buildReverseIndex_eq_writes (ps : ProtocolsFile) :
    buildReverseIndex ps = (indexWrites ps).foldl (fun m w => alSet m w.1 w.2) [] := by
  suffices h : ∀ m₀ : ReverseIndex,
      ps.foldl
        (fun m nc => nc.2.contracts.foldl (fun m addr => alSet m addr.toLower nc.1) m)
        m₀
        = (indexWrites ps).foldl (fun m w => alSet m w.1 w.2) m₀ from h []
  induction ps with
  | nil => intro m₀; simp [indexWrites]
  | cons nc ps ih =>
    intro m₀
    simp only [List.foldl_cons, indexWrites, List.flatMap_cons, List.foldl_append]
    rw [ih]
    congr 1
    rw [List.foldl_map]

/-- C8: the reverse index maps each lowercase-normalized contract
address to its protocol's name, and on duplicate addresses the
later-processed protocol silently wins: every lookup returns exactly the
last `(address.toLowerCase(), name)` write the nested loop performs. -/
theorem buildReverseIndex_last_write_wins (ps : ProtocolsFile) (a : String) :
    alGet (buildReverseIndex ps) a = lastWrite (indexWrites ps) a := by
  rw [buildReverseIndex_eq_writes, foldl_alSet_get]
  simp

/-! ### C1: classification cases -/

/-- §4.4 case 1: sender unmapped, receiver mapped. -/
def case1 (fromProt toProt : Option String) : Prop :=
  fromProt = none ∧ ∃ p, toProt = some p

/-- §4.4 case 2: sender mapped, receiver unmapped. -/
def case2 (fromProt toProt : Option String) : Prop :=
  (∃ p, fromProt = some p) ∧ toProt = none

/-- §4.4 case 3: both mapped, to different protocols. -/
def case3 (fromProt toProt : Option String) : Prop :=
  ∃ p₁ p₂, fromProt = some p₁ ∧ toProt = some p₂ ∧ p₁ ≠ p₂

/-- §4.4 case 4: both unmapped, or both mapped to the same protocol. -/
def case4 (fromProt toProt : Option String) : Prop :=
  (fromProt = none ∧ toProt = none) ∨ ∃ p, fromProt = some p ∧ toProt = some p

/-- The conclusion of C1 for one event: the four cases cover the
classification, are pairwise exclusive, and each dictates the loop
body's effect on the accumulation map. -/
def classifiedCorrectly (m : VolumeMap) (fromProt toProt : Option String)
    (v : ℚ) : Prop :=
  (case1 fromProt toProt ∨ case2 fromProt toProt ∨ case3 fromProt toProt ∨
      case4 fromProt toProt)
  ∧ ¬(case1 fromProt toProt ∧ case2 fromProt toProt)
  ∧ ¬(case1 fromProt toProt ∧ case3 fromProt toProt)
  ∧ ¬(case1 fromProt toProt ∧ case4 fromProt toProt)
  ∧ ¬(case2 fromProt toProt ∧ case3 fromProt toProt)
  ∧ ¬(case2 fromProt toProt ∧ case4 fromProt toProt)
  ∧ ¬(case3 fromProt toProt ∧ case4 fromProt toProt)
  ∧ (case1 fromProt toProt →
      stepClassify m fromProt toProt v = addFlow m "Wallets" (toProt.getD "") v)
  ∧ (case2 fromProt toProt →
      stepClassify m fromProt toProt v = addFlow m (fromProt.getD "") "Wallets" v)
  ∧ (case3 fromProt toProt →
      stepClassify m fromProt toProt v =
        addFlow m (fromProt.getD "") (toProt.getD "") v)
  ∧ (case4 fromProt toProt → stepClassify m fromProt toProt v = m)

/-- C1: for every event the classification is total and mutually
exclusive — exactly one of the four §4.4 cases applies, with the stated
edge.  The hypotheses record that the registry does not use the empty
string as a protocol name (a protocol named `""` is falsy in the
JavaScript guards and would be treated as unmapped). -/
theorem classification_total_exclusive (m : VolumeMap)
    (fromProt toProt : Option String) (v : ℚ)
    (hfp : fromProt ≠ some "") (htp : toProt ≠ some "") :
    classifiedCorrectly m fromProt toProt v := by
  rcases fromProt with _ | p
  · rcases toProt with _ | q
    · simp [classifiedCorrectly, case1, case2, case3, case4, stepClassify, truthy]
    · have hq : q ≠ "" := fun h => htp (by rw [h])
      simp [classifiedCorrectly, case1, case2, case3, case4, stepClassify, truthy,
        hq]
  · have hp : p ≠ "" := fun h => hfp (by rw [h])
    rcases toProt with _ | q
    · simp [classifiedCorrectly, case1, case2, case3, case4, stepClassify, truthy,
        hp]
    · have hq : q ≠ "" := fun h => htp (by rw [h])
      rcases eq_or_ne p q with hpq | hpq
      · subst hpq
        simp [classifiedCorrectly, case1, case2, case3, case4, stepClassify,
          truthy, hp]
      · simp [classifiedCorrectly, case1, case2, case3, case4, stepClassify,
          truthy, hp, hq, hpq, Ne.symm hpq]

/-- Witness for C1: a wallet-to-protocol event against the one-protocol
registry. -/
theorem classification_total_exclusive_witness :
    classifiedCorrectly [] none (some "Alpha") 1 :=
  classification_total_exclusive [] none (some "Alpha") 1
    (by simp) (by simp)

/-! ### C10: skipped events -/

theorem addFlow_nonpos (m : VolumeMap) (s t : String) (v : ℚ) (h : v ≤ 0) :
    addFlow m s t v = m := by
  simp [addFlow, h]

theorem stepClassify_nonpos (m : VolumeMap) (fromProt toProt : Option String)
    (v : ℚ) (h : v ≤ 0) :
    stepClassify m fromProt toProt v = m := by
  simp [stepClassify, addFlow, h]

/-- C10 counterexample: a log with no topics at all lacks a sender
topic, yet it is not silently skipped — dereferencing the undefined
`topics[0]` throws, so the whole aggregation aborts instead of
returning a report. -/
theorem aggregation_empty_topics_aborts :
    (TransferLog.mk "0xtoken" [] "0x" "0x1" "0xtx").topics.getD 1 "" = "" ∧
    (buildFlowsForPeriod [] [TransferLog.mk "0xtoken" [] "0x" "0x1" "0xtx"]).isOk
      = false :=
  ⟨rfl, rfl⟩

/-- C10 (amended): for every log record that has a first topic, if that
topic differs case-insensitively from the Transfer signature, or the
sender or receiver topic is missing (read as the falsy `undefined`,
modelled by `""`), or the data field is empty or `"0x"` (decoding to a
zero amount), then the loop body silently skips it: the accumulation map
is unchanged.  A record with no topics at all instead aborts the run. -/
theorem stepLog_skips_invalid (idx : ReverseIndex) (m : VolumeMap)
    (log : TransferLog) (hne : log.topics ≠ [])
    (h : (log.topics.headD "").toLower ≠ TRANSFER_TOPIC ∨
         log.topics.getD 1 "" = "" ∨ log.topics.getD 2 "" = "" ∨
         log.data = "" ∨ log.data = "0x") :
    stepLog idx m log = .ok m := by
  unfold stepLog
  rw [if_neg hne]
  congr 1
  simp only [stepPure]
  by_cases h0 : (log.topics.headD "").toLower ≠ TRANSFER_TOPIC
  · rw [if_pos h0]
  · rw [if_neg h0]
    by_cases h1 : log.topics.getD 1 "" = "" ∨ log.topics.getD 2 "" = ""
    · rw [if_pos h1]
    · rw [if_neg h1]
      have hdata : log.data = "" ∨ log.data = "0x" := by tauto
      have hz : hexToBigInt log.data = 0 := by
        rcases hdata with h' | h' <;> simp [hexToBigInt, h']
      rw [hz]
      have hw : weiToMon 0 18 = 0 := by simp [weiToMon]
      rw [hw]
      exact stepClassify_nonpos _ _ _ _ le_rfl

/-- Witness for C10 (amended): a log whose first topic is not the
Transfer signature leaves the empty accumulation untouched. -/
theorem stepLog_skips_invalid_witness :
    stepLog [] [] (TransferLog.mk "0xtoken" ["0xdead"] "0x5" "0x1" "0xtx") =
      .ok [] :=
  stepLog_skips_invalid [] [] _ (by simp) (Or.inl (by with_unfolding_all decide))

/-! ### Characterizing one loop iteration -/

/-- The converted amount of a log (`weiToMon(hexToBigInt(log.data))`). -/
def logVol (log : TransferLog) : ℚ :=
  weiToMon (hexToBigInt log.data) 18

/-- The edge a log is classified into, if it passes the guards. -/
def logEdge (idx : ReverseIndex) (log : TransferLog) :
    Option (String × String) :=
  let topic0 := log.topics.headD ""
  if topic0.toLower ≠ TRANSFER_TOPIC then none
  else
    let topicFrom := log.topics.getD 1 ""
    let topicTo := log.topics.getD 2 ""
    if topicFrom = "" ∨ topicTo = "" then none
    else
      classifyEdge (alGet idx ("0x" ++ (topicFrom.drop 26).toLower))
        (alGet idx ("0x" ++ (topicTo.drop 26).toLower))

/-- The three sequential guarded `addFlow` calls perform exactly the one
`addFlow` dictated by `classifyEdge` (the branch conditions are mutually
exclusive). -/
theorem stepClassify_eq_classifyEdge (m : VolumeMap)
    (fromProt toProt : Option String) (v : ℚ) :
    stepClassify m fromProt toProt v =
      match classifyEdge fromProt toProt with
      | some st => addFlow m st.1 st.2 v
      | none => m := by
  cases htf : truthy fromProt <;> cases htt : truthy toProt <;>
    by_cases heq : fromProt.getD "" = toProt.getD "" <;>
      simp [stepClassify, classifyEdge, htf, htt, heq]

/-- One loop iteration is the `addFlow` of the log's edge and volume. -/
theorem stepPure_eq_logEdge (idx : ReverseIndex) (m : VolumeMap)
    (log : TransferLog) :
    stepPure idx m log =
      match logEdge idx log with
      | some st => addFlow m st.1 st.2 (logVol log)
      | none => m := by
  simp only [stepPure, logEdge, logVol]
  split_ifs with h0 h1
  · rfl
  · rfl
  · exact stepClassify_eq_classifyEdge _ _ _ _

/-! ### Map invariants through the loop -/

theorem alGet_mem {α β : Type} [DecidableEq α] (m : List (α × β)) (k : α)
    (v : β) (h : alGet m k = some v) : (k, v) ∈ m := by
  induction m with
  | nil => simp [alGet] at h
  | cons hd tl ih =>
    obtain ⟨k₀, v₀⟩ := hd
    by_cases hk : k₀ = k
    · subst hk
      simp only [alGet, if_true, eq_self_iff_true, Option.some.injEq] at h
      simp [h]
    · simp only [alGet, hk, if_false] at h
      exact List.mem_cons_of_mem _ (ih h)

/-- Membership in a key-nodup association list is exactly a successful
lookup. -/
theorem mem_iff_alGet {α β : Type} [DecidableEq α] (m : List (α × β))
    (hm : KeysNodup m) (k : α) (v : β) :
    (k, v) ∈ m ↔ alGet m k = some v := by
  induction m with
  | nil => simp [alGet]
  | cons hd tl ih =>
    obtain ⟨k₀, v₀⟩ := hd
    simp only [KeysNodup, List.map_cons, List.nodup_cons] at hm
    by_cases hk : k₀ = k
    · subst hk
      simp only [alGet, if_true, eq_self_iff_true, List.mem_cons,
        Option.some.injEq, Prod.mk.injEq, true_and]
      constructor
      · rintro (h | h)
        · exact h.symm
        · exact absurd (List.mem_map_of_mem Prod.fst h) hm.1
      · rintro rfl
        exact Or.inl rfl
    · simp only [alGet, hk, if_false, List.mem_cons, Prod.mk.injEq]
      rw [ih hm.2]
      constructor
      · rintro (h | h)
        · exact absurd h.1.symm hk
        · exact h
      · exact Or.inr

/-- All stored volumes stay positive and all keys stay distinct across
`addFlow`. -/
theorem addFlow_good (m : VolumeMap) (s t : String) (v : ℚ)
    (h : KeysNodup m ∧ ∀ kv ∈ m, 0 < kv.2) :
    KeysNodup (addFlow m s t v) ∧ ∀ kv ∈ addFlow m s t v, 0 < kv.2 := by
  unfold addFlow
  split
  · exact h
  · rename_i hv
    push_neg at hv
    refine ⟨keysNodup_alSet _ _ _ h.1, alSet_values _ _ _ h.2 ?_⟩
    cases hget : alGet m (s, t) with
    | none => simpa [hget] using hv
    | some w =>
      have hw : 0 < w := h.2 _ (alGet_mem _ _ _ hget)
      simp only [hget, Option.getD_some]
      positivity

theorem stepPure_good (idx : ReverseIndex) (m : VolumeMap) (log : TransferLog)
    (h : KeysNodup m ∧ ∀ kv ∈ m, 0 < kv.2) :
    KeysNodup (stepPure idx m log) ∧ ∀ kv ∈ stepPure idx m log, 0 < kv.2 := by
  rw [stepPure_eq_logEdge]
  cases logEdge idx log with
  | none => exact h
  | some st => exact addFlow_good _ _ _ _ h

theorem foldl_stepPure_good (idx : ReverseIndex) (logs : List TransferLog)
    (m : VolumeMap) (h : KeysNodup m ∧ ∀ kv ∈ m, 0 < kv.2) :
    KeysNodup (logs.foldl (stepPure idx) m) ∧
      ∀ kv ∈ logs.foldl (stepPure idx) m, 0 < kv.2 := by
  induction logs generalizing m with
  | nil => exact h
  | cons l ls ih => exact ih _ (stepPure_good idx m l h)

/-! ### Relating the fallible loop to the pure loop -/

/-- A successful run of the loop is the pure fold. -/
theorem foldlM_stepLog_ok (idx : ReverseIndex) (logs : List TransferLog)
    (m m' : VolumeMap) (h : logs.foldlM (stepLog idx) m = .ok m') :
    m' = logs.foldl (stepPure idx) m := by
  induction logs generalizing m with
  | nil =>
    simp only [List.foldlM_nil, pure, Except.pure, Except.ok.injEq] at h
    simp [h]
  | cons l ls ih =>
    rw [List.foldlM_cons] at h
    by_cases hl : l.topics = []
    · simp [stepLog, hl, Bind.bind, Except.bind] at h
    · simp only [stepLog, hl, if_false, Bind.bind, Except.bind] at h
      exact ih _ h

/-- Inverting the `.map` at the end of `buildFlowsForPeriod`. -/
theorem buildFlowsForPeriod_ok (ps : ProtocolsFile) (logs : List TransferLog)
    (r : FlowFile) (h : buildFlowsForPeriod ps logs = .ok r) :
    r.flows = flowsOfMap (logs.foldl (stepPure (buildReverseIndex ps)) []) ∧
    r.totalVolume = totalVolumeOf r.flows := by
  simp only [buildFlowsForPeriod] at h
  cases hrun : logs.foldlM (stepLog (buildReverseIndex ps)) ([] : VolumeMap) with
  | error e => simp [hrun, Except.map] at h
  | ok volumeMap =>
    rw [hrun] at h
    simp only [Except.map, Except.ok.injEq] at h
    have hm := foldlM_stepLog_ok _ _ _ _ hrun
    subst hm
    rw [← h]
    exact ⟨rfl, rfl⟩

/-! ### Concrete witness inputs (spec §8, scenario B) -/

/-- A registry with the single protocol `Alpha`. -/
def AlphaRegistry : ProtocolsFile :=
  [("Alpha", ⟨["0xAAAAaaaaAAAAaaaaAAAAaaaaAAAAaaaaAAAAaaaa"], none⟩)]

/-- The 32-byte topic encoding Alpha's contract address. -/
def alphaTopic : String :=
  "0x000000000000000000000000aaaaaaaaaaaaaaaaaaaaaaaaaaaaaaaaaaaaaaaa"

/-- The 32-byte topic encoding an unmapped wallet address. -/
def walletTopic : String :=
  "0x0000000000000000000000001111111111111111111111111111111111111111"

/-- A wallet → Alpha transfer of 2 MON (2·10¹⁸ wei). -/
def depositTwo : TransferLog :=
  ⟨"0xtoken", [TRANSFER_TOPIC, walletTopic, alphaTopic],
    "0x1bc16d674ec80000", "0x1", "0xt1"⟩

/-- A wallet → Alpha transfer of 3 MON. -/
def depositThree : TransferLog :=
  ⟨"0xtoken", [TRANSFER_TOPIC, walletTopic, alphaTopic],
    "0x29a2241af62c0000", "0x2", "0xt2"⟩

/-- Scenario B's expected report: one accumulated edge of volume 5. -/
def scenarioBReport : FlowFile :=
  ⟨"raw", 5, [⟨"Wallets", "Alpha", 5⟩]⟩

/-! ### C2, C3, C4 -/

/-- C2: any report the aggregation produces has at most one edge per
ordered `(source, target)` pair — repeated classifications accumulate
into that edge instead of duplicating it. -/
theorem flows_at_most_one_edge_per_pair (ps : ProtocolsFile)
    (logs : List TransferLog) (r : FlowFile)
    (h : buildFlowsForPeriod ps logs = .ok r) :
    r.flows.Pairwise fun e₁ e₂ => (e₁.source, e₁.target) ≠ (e₂.source, e₂.target) := by
  obtain ⟨hf, -⟩ := buildFlowsForPeriod_ok ps logs r h
  rw [hf]
  have hg := foldl_stepPure_good (buildReverseIndex ps) logs []
    ⟨keysNodup_nil, by simp⟩
  have hnd : ((logs.foldl (stepPure (buildReverseIndex ps)) []).map
      Prod.fst).Nodup := hg.1
  have hp : (logs.foldl (stepPure (buildReverseIndex ps)) []).Pairwise
      fun a b => a.1 ≠ b.1 := List.pairwise_map.mp hnd
  unfold flowsOfMap
  rw [List.pairwise_map]
  refine hp.imp ?_
  intro a b hab hc
  apply hab
  exact Prod.ext (congrArg Prod.fst hc) (congrArg Prod.snd hc)

set_option maxRecDepth 10000 in
/-- Witness for C2: scenario B — two `Wallets → Alpha` deposits of 2 and
3 yield the single edge of volume 5, and the edge list is duplicate-free. -/
theorem flows_at_most_one_edge_witness :
    buildFlowsForPeriod AlphaRegistry [depositTwo, depositThree] =
      .ok scenarioBReport ∧
    scenarioBReport.flows.Pairwise
      fun e₁ e₂ => (e₁.source, e₁.target) ≠ (e₂.source, e₂.target) := by
  have h : buildFlowsForPeriod AlphaRegistry [depositTwo, depositThree] =
      .ok scenarioBReport := by
    with_unfolding_all decide
  exact ⟨h, flows_at_most_one_edge_per_pair _ _ _ h⟩

/-- C3: every edge of any report the aggregation produces has strictly
positive volume. -/
theorem flows_volumes_pos (ps : ProtocolsFile) (logs : List TransferLog)
    (r : FlowFile) (h : buildFlowsForPeriod ps logs = .ok r) :
    ∀ f ∈ r.flows, 0 < f.volume := by
  obtain ⟨hf, -⟩ := buildFlowsForPeriod_ok ps logs r h
  rw [hf]
  have hg := foldl_stepPure_good (buildReverseIndex ps) logs []
    ⟨keysNodup_nil, by simp⟩
  intro f hfmem
  simp only [flowsOfMap, List.mem_map] at hfmem
  obtain ⟨kv, hkv, rfl⟩ := hfmem
  exact hg.2 kv hkv

set_option maxRecDepth 10000 in
/-- Witness for C3: the scenario-B edge has positive volume. -/
theorem flows_volumes_pos_witness :
    buildFlowsForPeriod AlphaRegistry [depositTwo, depositThree] =
      .ok scenarioBReport ∧
    0 < (FlowEntry.mk "Wallets" "Alpha" 5).volume := by
  have h : buildFlowsForPeriod AlphaRegistry [depositTwo, depositThree] =
      .ok scenarioBReport := by
    with_unfolding_all decide
  exact ⟨h, flows_volumes_pos _ _ _ h (FlowEntry.mk "Wallets" "Alpha" 5)
    (by simp [scenarioBReport])⟩

theorem foldl_add_volume (flows : List FlowEntry) (a : ℚ) :
    flows.foldl (fun sum f => sum + f.volume) a
      = a + (flows.map FlowEntry.volume).sum := by
  induction flows generalizing a with
  | nil => simp
  | cons f fs ih => simp [ih, add_assoc]

theorem totalVolumeOf_eq_sum (flows : List FlowEntry) :
    totalVolumeOf flows = (flows.map FlowEntry.volume).sum := by
  simpa [totalVolumeOf] using foldl_add_volume flows 0

/-- C4: the report's total volume is the sum of the finalized edge
volumes, computed in one pass over the finished edge list. -/
theorem totalVolume_eq_sum (ps : ProtocolsFile) (logs : List TransferLog)
    (r : FlowFile) (h : buildFlowsForPeriod ps logs = .ok r) :
    r.totalVolume = (r.flows.map FlowEntry.volume).sum := by
  obtain ⟨-, ht⟩ := buildFlowsForPeriod_ok ps logs r h
  rw [ht, totalVolumeOf_eq_sum]

set_option maxRecDepth 10000 in
/-- Witness for C4: scenario B's total is the sum over its edge list. -/
theorem totalVolume_eq_sum_witness :
    buildFlowsForPeriod AlphaRegistry [depositTwo, depositThree] =
      .ok scenarioBReport ∧
    scenarioBReport.totalVolume = (scenarioBReport.flows.map FlowEntry.volume).sum := by
  have h : buildFlowsForPeriod AlphaRegistry [depositTwo, depositThree] =
      .ok scenarioBReport := by
    with_unfolding_all decide
  exact ⟨h, totalVolume_eq_sum _ _ _ h⟩

/-! ### C5: order-independence of the aggregation -/

/-- Whether a log contributes volume to edge `k`: it classifies into `k`
and its converted amount passes the positivity guard. -/
def contributes (idx : ReverseIndex) (k : String × String)
    (log : TransferLog) : Prop :=
  logEdge idx log = some k ∧ 0 < logVol log

/-- The volume a log adds to edge `k` (0 when it does not contribute). -/
def contribOf (idx : ReverseIndex) (k : String × String)
    (log : TransferLog) : ℚ :=
  if logEdge idx log = some k ∧ 0 < logVol log then logVol log else 0

/-- One iteration adds exactly the log's contribution to each key's
stored volume (reading an absent key as 0). -/
theorem alGet_stepPure_getD (idx : ReverseIndex) (m : VolumeMap)
    (log : TransferLog) (k : String × String) :
    (alGet (stepPure idx m log) k).getD 0
      = (alGet m k).getD 0 + contribOf idx k log := by
  rw [stepPure_eq_logEdge]
  cases he : logEdge idx log with
  | none => simp [contribOf, he]
  | some st =>
    by_cases hv : 0 < logVol log
    · simp only [addFlow, not_le.mpr hv, if_false]
      rw [alGet_alSet]
      rcases eq_or_ne k st with hk | hk
      · subst hk
        simp [contribOf, he, hv]
      · simp [hk, contribOf, he, Ne.symm hk, hv]
    · simp [addFlow, not_lt.mp hv, contribOf, he, hv]

/-- One iteration creates a key exactly when the log contributes to it. -/
theorem alGet_stepPure_none (idx : ReverseIndex) (m : VolumeMap)
    (log : TransferLog) (k : String × String) :
    alGet (stepPure idx m log) k = none ↔
      alGet m k = none ∧ ¬contributes idx k log := by
  rw [stepPure_eq_logEdge]
  cases he : logEdge idx log with
  | none => simp [contributes, he]
  | some st =>
    by_cases hv : 0 < logVol log
    · simp only [addFlow, not_le.mpr hv, if_false]
      rw [alGet_alSet]
      rcases eq_or_ne k st with hk | hk
      · subst hk
        simp [contributes, he, hv]
      · simp [hk, contributes, he, Ne.symm hk, hv]
    · simp [addFlow, not_lt.mp hv, contributes, he, hv]

/-- The stored volume after the loop is the sum of the contributions. -/
theorem alGet_foldl_getD (idx : ReverseIndex) (logs : List TransferLog)
    (m : VolumeMap) (k : String × String) :
    (alGet (logs.foldl (stepPure idx) m) k).getD 0
      = (alGet m k).getD 0 + (logs.map (contribOf idx k)).sum := by
  induction logs generalizing m with
  | nil => simp
  | cons l ls ih =>
    simp only [List.foldl_cons, List.map_cons, List.sum_cons]
    rw [ih, alGet_stepPure_getD]
    ring

/-- A key is absent after the loop exactly when it was absent before and
no log contributed to it. -/
theorem alGet_foldl_none (idx : ReverseIndex) (logs : List TransferLog)
    (m : VolumeMap) (k : String × String) :
    alGet (logs.foldl (stepPure idx) m) k = none ↔
      alGet m k = none ∧ ∀ log ∈ logs, ¬contributes idx k log := by
  induction logs generalizing m with
  | nil => simp
  | cons l ls ih =>
    simp only [List.foldl_cons]
    rw [ih, alGet_stepPure_none]
    simp only [List.forall_mem_cons]
    tauto

/-- Permuting the logs leaves every lookup in the final map unchanged. -/
theorem alGet_foldl_perm (idx : ReverseIndex) (logs logs' : List TransferLog)
    (hp : logs.Perm logs') (k : String × String) :
    alGet (logs.foldl (stepPure idx) []) k
      = alGet (logs'.foldl (stepPure idx) []) k := by
  have hv : (alGet (logs.foldl (stepPure idx) []) k).getD 0
      = (alGet (logs'.foldl (stepPure idx) []) k).getD 0 := by
    rw [alGet_foldl_getD, alGet_foldl_getD]
    exact congrArg _ (hp.map (contribOf idx k)).sum_eq
  have hn : alGet (logs.foldl (stepPure idx) []) k = none ↔
      alGet (logs'.foldl (stepPure idx) []) k = none := by
    rw [alGet_foldl_none, alGet_foldl_none]
    simp only [alGet_nil, true_and]
    constructor <;> intro h log hmem
    · exact h log (hp.mem_iff.mpr hmem)
    · exact h log (hp.mem_iff.mp hmem)
  cases hL : alGet (logs.foldl (stepPure idx) []) k with
  | none => exact (hn.mp hL).symm
  | some v =>
    cases hL' : alGet (logs'.foldl (stepPure idx) []) k with
    | none =>
      rw [← hL]
      exact hn.mpr hL'
    | some v' =>
      rw [hL, hL'] at hv
      simpa using hv

/-- Permuting the logs permutes the accumulation map (same keys, same
volumes; only the first-encountered order changes). -/
theorem foldl_stepPure_perm (idx : ReverseIndex)
    (logs logs' : List TransferLog) (hp : logs.Perm logs') :
    (logs.foldl (stepPure idx) []).Perm (logs'.foldl (stepPure idx) []) := by
  have g1 := foldl_stepPure_good idx logs [] ⟨keysNodup_nil, by simp⟩
  have g2 := foldl_stepPure_good idx logs' [] ⟨keysNodup_nil, by simp⟩
  refine List.perm_of_nodup_nodup_toFinset_eq
    (List.Nodup.of_map _ g1.1) (List.Nodup.of_map _ g2.1) ?_
  ext x
  obtain ⟨k, v⟩ := x
  rw [List.mem_toFinset, List.mem_toFinset,
    mem_iff_alGet _ g1.1, mem_iff_alGet _ g2.1,
    alGet_foldl_perm idx logs logs' hp k]

/-- C5: aggregation is commutative over event order — permuting the
input logs yields a report with the same edges and volumes (as a
permutation of the duplicate-free edge list) and, in this exact model,
the same total volume. -/
theorem aggregation_perm_invariant (ps : ProtocolsFile)
    (logs logs' : List TransferLog) (hp : logs.Perm logs') (r r' : FlowFile)
    (h : buildFlowsForPeriod ps logs = .ok r)
    (h' : buildFlowsForPeriod ps logs' = .ok r') :
    r.flows.Perm r'.flows ∧ r.totalVolume = r'.totalVolume := by
  obtain ⟨hf, ht⟩ := buildFlowsForPeriod_ok ps logs r h
  obtain ⟨hf', ht'⟩ := buildFlowsForPeriod_ok ps logs' r' h'
  have hm := foldl_stepPure_perm (buildReverseIndex ps) logs logs' hp
  have hflows : r.flows.Perm r'.flows := by
    rw [hf, hf']
    exact hm.map _
  refine ⟨hflows, ?_⟩
  rw [ht, ht', totalVolumeOf_eq_sum, totalVolumeOf_eq_sum]
  exact (hflows.map FlowEntry.volume).sum_eq

set_option maxRecDepth 10000 in
/-- Witness for C5: swapping the two scenario-B deposits yields the same
report. -/
theorem aggregation_perm_invariant_witness :
    [depositTwo, depositThree].Perm [depositThree, depositTwo] ∧
    buildFlowsForPeriod AlphaRegistry [depositTwo, depositThree] =
      .ok scenarioBReport ∧
    buildFlowsForPeriod AlphaRegistry [depositThree, depositTwo] =
      .ok scenarioBReport ∧
    scenarioBReport.flows.Perm scenarioBReport.flows ∧
    scenarioBReport.totalVolume = scenarioBReport.totalVolume := by
  have hperm : [depositTwo, depositThree].Perm [depositThree, depositTwo] :=
    List.Perm.swap depositThree depositTwo []
  have h1 : buildFlowsForPeriod AlphaRegistry [depositTwo, depositThree] =
      .ok scenarioBReport := by
    with_unfolding_all decide
  have h2 : buildFlowsForPeriod AlphaRegistry [depositThree, depositTwo] =
      .ok scenarioBReport := by
    with_unfolding_all decide
  have hc := aggregation_perm_invariant AlphaRegistry _ _ hperm _ _ h1 h2
  exact ⟨hperm, h1, h2, hc.1, hc.2⟩

end UpdateFlows
